import Mathlib

set_option maxHeartbeats 1000000

/- Verification of the snapshot core of the pebble LSM key-value engine:
the sequence-number-ordered snapshot registry, the snapshot handle
lifecycle, the visibility filter applied at a snapshot horizon, the
interaction with range-deletion tombstones, and the GC-horizon
computation.

The repository sources available contain the test suite
(snapshot_test.go); the snapshot core itself (snapshot.go, db.go) is not
among them, so the definitions below are modelled from the specification
document, constrained by the behaviour the tests demand.  Keys are
modelled as naturals: every key the tests produce is a fixed-width
8-digit decimal string ("%08d" of a value < 10^8), on which
lexicographic byte order coincides with numeric order. -/

/-- Values stored in the engine (byte strings in the source). -/
abbrev Val := String

/-- Modelled from the spec: the deterministic error sentinels of the core.
ErrClosed is the closed-snapshot sentinel; ioError models an opaque
storage I/O error surfaced by the external merged-iteration primitive. -/
inductive DBError where
  | ErrClosed : DBError
  | ioError : Nat → DBError
deriving DecidableEq, Repr

/-- Modelled from the spec: point-mutation kinds (Set, Delete, Merge).
Range deletions are carried separately as tombstones. -/
inductive Kind where
  | set : Kind
  | del : Kind
  | merge : Kind
deriving DecidableEq, Repr

/-- Modelled from the spec: a point mutation record
(key, kind, value, sequenceNumber). -/
structure PointMut where
  key : Nat
  kind : Kind
  value : Val
  seq : Nat
deriving DecidableEq, Repr

/-- Modelled from the spec: a range-deletion tombstone
(startKey inclusive, endKey exclusive, sequenceNumber). -/
structure RangeTomb where
  start : Nat
  stop : Nat
  seq : Nat
deriving DecidableEq, Repr

/-- Modelled from the spec: the engine's logical mutation state.  `seq` is
the last allocated sequence number (0 = none allocated yet; sequence
numbers of committed mutations start at 1).  Mutations are appended in
commit order, so both lists are ascending in `seq`. -/
structure DB where
  points : List PointMut
  tombs : List RangeTomb
  seq : Nat
deriving DecidableEq, Repr

def DB.empty : DB := ⟨[], [], 0⟩

/-- Modelled from the spec: `set(key, value)` allocates the next sequence
number and commits a Set mutation. -/
def DB.Set (db : DB) (k : Nat) (v : Val) : DB :=
  ⟨db.points ++ [⟨k, Kind.set, v, db.seq + 1⟩], db.tombs, db.seq + 1⟩

/-- Modelled from the spec: `delete(key)`. -/
def DB.Delete (db : DB) (k : Nat) : DB :=
  ⟨db.points ++ [⟨k, Kind.del, "", db.seq + 1⟩], db.tombs, db.seq + 1⟩

/-- Modelled from the spec: `merge(key, value)`. -/
def DB.Merge (db : DB) (k : Nat) (v : Val) : DB :=
  ⟨db.points ++ [⟨k, Kind.merge, v, db.seq + 1⟩], db.tombs, db.seq + 1⟩

/-- Caller-usage errors reported synchronously. -/
inductive UsageError where
  | invalidRange : UsageError
deriving DecidableEq, Repr

/-- Modelled from the spec: `deleteRange(start, end)` commits a tombstone
over [start, end).  A reversed range (start > end) is a synchronous usage
error; an empty range (start = end) is accepted — the test suite
(TestSnapshotRangeDeletionStress, round 0) requires NoError from
`DeleteRange(mid, mid)`. -/
def DB.DeleteRange (db : DB) (s e : Nat) : Except UsageError DB :=
  if e < s then Except.error UsageError.invalidRange
  else Except.ok ⟨db.points, db.tombs ++ [⟨s, e, db.seq + 1⟩], db.seq + 1⟩

/-- Modelled from the spec: `compact(start, end)` triggers a physical
reorganization, which is invisible at the logical level modelled here;
a reversed range is a synchronous usage error. -/
def DB.Compact (db : DB) (s e : Nat) : Except UsageError DB :=
  if e < s then Except.error UsageError.invalidRange
  else Except.ok db

/-- Modelled from the spec (visibility filter, step 1-2): the versions of
key `k` with sequence number at most the horizon `H`, newest first.
The mutation log is ascending in `seq`, so reversing the filtered log
lists the surviving versions by decreasing sequence number. -/
def versionsFor (k H : Nat) (ps : List PointMut) : List PointMut :=
  (ps.filter (fun q => q.key == k && decide (q.seq ≤ H))).reverse

/-- Modelled from the spec (visibility filter, step 3): the greatest
sequence number of a tombstone covering `k` with seq ≤ H, or 0 (the
reserved "no constraint" sentinel) when none covers it. -/
def tombMax (k H : Nat) (ts : List RangeTomb) : Nat :=
  ts.foldr
    (fun t acc =>
      if t.start ≤ k ∧ k < t.stop ∧ t.seq ≤ H then max t.seq acc else acc)
    0

/-- Modelled from the spec (visibility filter, step 4): resolve a
newest-first stack of visible versions.  A Set is the value, a Delete is
absence, and a Merge folds the pluggable merge operator `m` over the
older visible versions, oldest to newest, stopping at the nearest
Set/Delete. -/
def resolve (m : Val → Val → Val) : List PointMut → Option Val
  | [] => none
  | q :: rest =>
    match q.kind with
    | Kind.set => some q.value
    | Kind.del => none
    | Kind.merge =>
      match resolve m rest with
      | none => some q.value
      | some acc => some (m acc q.value)

/-- Modelled from the spec: a point read at horizon `H`.  Versions masked
by a covering tombstone of greater-or-equal sequence number are
discarded (this uniformly realizes step 4's tombstone rule: if the
latest version is at S_v and a covering tombstone has S_t ≥ S_v, nothing
survives the mask). -/
def DB.get (m : Val → Val → Val) (db : DB) (H k : Nat) : Option Val :=
  resolve m
    ((versionsFor k H db.points).filter
      (fun q => decide (tombMax k H db.tombs < q.seq)))

/-- Modelled from the spec: the keys an iterator at horizon `H` yields,
over the key universe [0, bound).  Iteration applies the identical
visibility rule as point lookups. -/
def visibleKeys (m : Val → Val → Val) (db : DB) (H bound : Nat) : List Nat :=
  (List.range bound).filter (fun p => (db.get m H p).isSome)

/-- The number of keys an iterator at horizon `H` yields over [0, bound). -/
def countVisible (m : Val → Val → Val) (db : DB) (H bound : Nat) : Nat :=
  (visibleKeys m db H bound).length

/-- The entries an iterator at horizon `H` yields over [0, bound). -/
def DB.entriesAt (m : Val → Val → Val) (db : DB) (H bound : Nat) :
    List (Nat × Val) :=
  (List.range bound).filterMap
    (fun p => (db.get m H p).map (fun v => (p, v)))

/-- A committed write operation, as consumed from the write path. -/
inductive WriteOp where
  | setOp : Nat → Val → WriteOp
  | delOp : Nat → WriteOp
  | mergeOp : Nat → Val → WriteOp
  | rangeDelOp : Nat → Nat → WriteOp
deriving DecidableEq, Repr

/-- Apply one committed write to the engine state.  A rejected
(reversed-range) deleteRange commits nothing. -/
def DB.applyOp (db : DB) : WriteOp → DB
  | WriteOp.setOp k v => db.Set k v
  | WriteOp.delOp k => db.Delete k
  | WriteOp.mergeOp k v => db.Merge k v
  | WriteOp.rangeDelOp s e =>
    match db.DeleteRange s e with
    | Except.ok db2 => db2
    | Except.error _ => db

def DB.applyOps (db : DB) (ops : List WriteOp) : DB :=
  ops.foldl DB.applyOp db

/-- Well-formedness of an engine state: every committed mutation carries a
sequence number in [1, db.seq]. -/
def DB.wf (db : DB) : Prop :=
  (∀ q ∈ db.points, 1 ≤ q.seq ∧ q.seq ≤ db.seq) ∧
    (∀ t ∈ db.tombs, 1 ≤ t.seq ∧ t.seq ≤ db.seq)

/-- The state restricted to mutations with sequence number at most `H`. -/
def DB.restrict (db : DB) (H : Nat) : DB :=
  ⟨db.points.filter (fun q => decide (q.seq ≤ H)),
    db.tombs.filter (fun t => decide (t.seq ≤ H)),
    min db.seq H⟩

/-- Modelled from the spec: a snapshot handle — a pinned sequence number
and a closed flag. -/
structure Snapshot where
  seqNum : Nat
  closed : Bool
deriving DecidableEq, Repr

/-- The outcome of a call that may panic: either an ordinary return value
or a recoverable panic carrying an error sentinel. -/
inductive Outcome (α : Type) where
  | ok : α → Outcome α
  | panicked : DBError → Outcome α
deriving DecidableEq, Repr

/-- Modelled from the spec: `createSnapshot` captures the engine's current
maximum committed sequence number. -/
def DB.NewSnapshot (db : DB) : Snapshot := ⟨db.seq, false⟩

/-- Modelled from the spec and TestSnapshotClosed: the first `Close`
returns an ordinary nil error; any later `Close` panics with the
ErrClosed sentinel. -/
def Snapshot.Close (s : Snapshot) : Outcome (Snapshot × Option DBError) :=
  if s.closed then Outcome.panicked DBError.ErrClosed
  else Outcome.ok (⟨s.seqNum, true⟩, none)

/-- Modelled from the spec: `Get` through a snapshot applies the
visibility filter at the pinned horizon; it panics with ErrClosed after
the snapshot is closed. -/
def Snapshot.Get (m : Val → Val → Val) (s : Snapshot) (db : DB) (k : Nat) :
    Outcome (Option Val) :=
  if s.closed then Outcome.panicked DBError.ErrClosed
  else Outcome.ok (db.get m s.seqNum k)

/-- A drainable iterator handle: the current entry when positioned, the
remaining entries, and the terminal error state. -/
structure Iterator where
  pos : Option (Nat × Val)
  rest : List (Nat × Val)
  err : Option DBError
deriving DecidableEq, Repr

/-- Modelled from the spec: position an iterator on the outcome of the
external merged-iteration primitive, which either yields the
visibility-filtered entry stream or fails with a storage I/O error.  A
storage failure leaves the iterator invalid with the error, unchanged,
in its terminal error state. -/
def Iterator.start : Except DBError (List (Nat × Val)) → Iterator
  | Except.error e => ⟨none, [], some e⟩
  | Except.ok [] => ⟨none, [], none⟩
  | Except.ok (x :: l) => ⟨some x, l, none⟩

/-- An iterator is valid exactly when positioned on an entry. -/
def Iterator.Valid (it : Iterator) : Bool := it.pos.isSome

/-- The iterator's terminal error state, distinct from exhaustion. -/
def Iterator.Error (it : Iterator) : Option DBError := it.err

/-- Advance the iterator; the terminal error state is preserved. -/
def Iterator.Next (it : Iterator) : Iterator :=
  match it.rest with
  | [] => ⟨none, [], it.err⟩
  | x :: l => ⟨some x, l, it.err⟩

/-- Advance the iterator `n` times. -/
def Iterator.run (it : Iterator) : Nat → Iterator
  | 0 => it
  | n + 1 => it.Next.run n

/-- Modelled from the spec: `NewIter` on a snapshot panics with ErrClosed
once the snapshot is closed, and otherwise iterates the
visibility-filtered key space at the pinned horizon. -/
def Snapshot.NewIter (m : Val → Val → Val) (s : Snapshot) (db : DB)
    (bound : Nat) : Outcome Iterator :=
  if s.closed then Outcome.panicked DBError.ErrClosed
  else Outcome.ok (Iterator.start (Except.ok (DB.entriesAt m db s.seqNum bound)))

/-- Modelled from the spec: a storage point read through the external
merged-iteration primitive; a storage I/O error propagates unchanged. -/
def getThrough (storage : Except DBError (List (Nat × Val))) (k : Nat) :
    Except DBError (Option Val) :=
  match storage with
  | Except.error e => Except.error e
  | Except.ok l => Except.ok (l.lookup k)

/-- Modelled from TestSnapshotClosed's catch harness: recover turns a
panic into its carried error value, and an ordinary return into nil. -/
def catchPanic {α : Type} : Outcome α → Option DBError
  | Outcome.ok _ => none
  | Outcome.panicked e => some e

/-- Modelled from the spec: the snapshot registry, an insertion-ordered
collection of live snapshots. -/
structure snapshotList where
  elems : List Snapshot
deriving DecidableEq, Repr

/-- An empty registry. -/
def snapshotList.init : snapshotList := ⟨[]⟩

/-- Insert at the tail. -/
def snapshotList.pushBack (l : snapshotList) (s : Snapshot) : snapshotList :=
  ⟨l.elems ++ [s]⟩

/-- The ordered sequence numbers of the registered snapshots. -/
def snapshotList.toSlice (l : snapshotList) : List Nat :=
  l.elems.map Snapshot.seqNum

/-- Emptiness check. -/
def snapshotList.isEmpty (l : snapshotList) : Bool := l.elems.isEmpty

/-- Remove the first occurrence of a snapshot from a list. -/
def removeFirst : List Snapshot → Snapshot → List Snapshot
  | [], _ => []
  | t :: rest, s => if t = s then rest else t :: removeFirst rest s

/-- Unlink a registered snapshot. -/
def snapshotList.remove (l : snapshotList) (s : Snapshot) : snapshotList :=
  ⟨removeFirst l.elems s⟩

/-- Modelled from the spec: the serialized core shared between the write
path and the snapshot mechanism — the last allocated sequence number and
the registry, both mutated only under the single serialization point. -/
structure Engine where
  seq : Nat
  registry : snapshotList
deriving DecidableEq, Repr

/-- Modelled from the spec: the transitions taken under the serialization
point.  `commit` abstracts any committed write (it allocates the next
sequence number); `createSnapshot` registers a snapshot pinned at the
current maximum committed sequence number; `closeSnapshot` unlinks a
registered snapshot. -/
inductive EngineStep : Engine → Engine → Prop where
  | commit (e : Engine) : EngineStep e ⟨e.seq + 1, e.registry⟩
  | createSnapshot (e : Engine) :
      EngineStep e ⟨e.seq, e.registry.pushBack ⟨e.seq, false⟩⟩
  | closeSnapshot (e : Engine) (s : Snapshot) (h : s ∈ e.registry.elems) :
      EngineStep e ⟨e.seq, e.registry.remove s⟩

/-- The reachable engine states: an empty registry at sequence 0, closed
under engine steps. -/
inductive Reachable : Engine → Prop where
  | start : Reachable ⟨0, snapshotList.init⟩
  | step {e f : Engine} : Reachable e → EngineStep e f → Reachable f

/-- Modelled from the spec: the GC horizon consumed by compaction — the
sequence number of the registry's front (oldest) snapshot, or unbounded
(⊤) when no snapshot is open. -/
def currentGCHorizon (e : Engine) : WithTop Nat :=
  match e.registry.elems with
  | [] => ⊤
  | s :: _ => (s.seqNum : WithTop Nat)

/-- The value written by every Set of the stress scenario. -/
def helloVal : Val := "hello world"

/-- Apply a deleteRange, keeping the prior state on a usage error (the
stress scenario only issues well-formed ranges). -/
def DB.deleteRangeTotal (db : DB) (s e : Nat) : DB :=
  match db.DeleteRange s e with
  | Except.ok db2 => db2
  | Except.error _ => db

/-- One round of TestSnapshotRangeDeletionStress with `runs = n`: round
`r` sets the keys n·i + r for i < 2n, then deletes the range
[n·n − n·r, n·n + n·r). -/
def doRound (n : Nat) (db : DB) (r : Nat) : DB :=
  ((List.range (2 * n)).foldl (fun d i => d.Set (n * i + r) helloVal)
      db).deleteRangeTotal (n * n - n * r) (n * n + n * r)

/-- The engine state of TestSnapshotRangeDeletionStress with `runs = n`
immediately after round `r` (where the r-th snapshot is taken). -/
def scenario (n r : Nat) : DB :=
  (List.range (r + 1)).foldl (doRound n) DB.empty

/-- Folding pushBack over a list of sequence numbers appends the
corresponding snapshots. -/
theorem pushBack_foldl_elems (l : snapshotList) (vals : List Nat) :
    (vals.foldl (fun a v => a.pushBack ⟨v, false⟩) l).elems
      = l.elems ++ vals.map (fun v => (⟨v, false⟩ : Snapshot)) := by
  induction vals generalizing l with
  | nil => simp
  | cons v vs ih =>
    rw [List.foldl_cons, ih]
    simp [snapshotList.pushBack]

/-- C5: for a registry built by init() followed by pushBack of snapshots
carrying v1..vn in that order, toSlice() returns exactly [v1..vn] — in
insertion order, for arbitrary values including non-ascending ones — and
an empty registry yields an empty slice.  (The call is purely
observational: in this model toSlice is a function of the registry value
and cannot mutate it.) -/
theorem registry_order_law (vals : List Nat) :
    (vals.foldl (fun a v => a.pushBack ⟨v, false⟩) snapshotList.init).toSlice
      = vals := by
  simp only [snapshotList.toSlice, pushBack_foldl_elems, snapshotList.init,
    List.map_map, List.nil_append]
  have h : (Snapshot.seqNum ∘ fun v => (⟨v, false⟩ : Snapshot)) = fun v => v :=
    rfl
  rw [h, List.map_id']

/-- C2: for every open snapshot, the first Close succeeds; a second
Close, a Get, and a NewIter made after it all fail with the one
ErrClosed sentinel, identically across the three call sites. -/
theorem snapshot_double_close_law (s : Snapshot) (h : s.closed = false) :
    ∃ s2 : Snapshot,
      s.Close = Outcome.ok (s2, none) ∧
      s2.Close = Outcome.panicked DBError.ErrClosed ∧
      (∀ m db k, Snapshot.Get m s2 db k = Outcome.panicked DBError.ErrClosed) ∧
      (∀ m db bound,
        Snapshot.NewIter m s2 db bound = Outcome.panicked DBError.ErrClosed) := by
  refine ⟨⟨s.seqNum, true⟩, ?_, ?_, ?_, ?_⟩ <;>
    simp [Snapshot.Close, Snapshot.Get, Snapshot.NewIter, h]

/-- Witness for C2 at a concrete snapshot of the empty engine. -/
theorem snapshot_double_close_law_witness :
    (DB.empty.NewSnapshot).closed = false ∧
      ∃ s2 : Snapshot,
        (DB.empty.NewSnapshot).Close = Outcome.ok (s2, none) ∧
        s2.Close = Outcome.panicked DBError.ErrClosed ∧
        (∀ m db k,
          Snapshot.Get m s2 db k = Outcome.panicked DBError.ErrClosed) ∧
        (∀ m db bound,
          Snapshot.NewIter m s2 db bound = Outcome.panicked DBError.ErrClosed) :=
  ⟨rfl, snapshot_double_close_law DB.empty.NewSnapshot rfl⟩

/-- C10: the closed-error is delivered by panicking.  After the first
Close of an open snapshot — which returns an ordinary nil error — a
second Close, a Get, or a NewIter never produces an ordinary return at
all, and the panic each raises is recoverable and carries exactly the
ErrClosed sentinel. -/
theorem closed_error_panics (s : Snapshot) (h : s.closed = false) :
    ∃ s2 : Snapshot,
      s.Close = Outcome.ok (s2, none) ∧
      (∀ r : Snapshot × Option DBError, s2.Close ≠ Outcome.ok r) ∧
      (∀ m db k r, Snapshot.Get m s2 db k ≠ Outcome.ok r) ∧
      (∀ m db bound r, Snapshot.NewIter m s2 db bound ≠ Outcome.ok r) ∧
      catchPanic s2.Close = some DBError.ErrClosed ∧
      (∀ m db k, catchPanic (Snapshot.Get m s2 db k) = some DBError.ErrClosed) ∧
      (∀ m db bound,
        catchPanic (Snapshot.NewIter m s2 db bound) = some DBError.ErrClosed) := by
  refine ⟨⟨s.seqNum, true⟩, ?_, ?_, ?_, ?_, ?_, ?_, ?_⟩ <;>
    simp [Snapshot.Close, Snapshot.Get, Snapshot.NewIter, catchPanic, h]

/-- Witness for C10 at a concrete snapshot of the empty engine. -/
theorem closed_error_panics_witness :
    (DB.empty.NewSnapshot).closed = false ∧
      ∃ s2 : Snapshot,
        (DB.empty.NewSnapshot).Close = Outcome.ok (s2, none) ∧
        (∀ r : Snapshot × Option DBError, s2.Close ≠ Outcome.ok r) ∧
        (∀ m db k r, Snapshot.Get m s2 db k ≠ Outcome.ok r) ∧
        (∀ m db bound r, Snapshot.NewIter m s2 db bound ≠ Outcome.ok r) ∧
        catchPanic s2.Close = some DBError.ErrClosed ∧
        (∀ m db k,
          catchPanic (Snapshot.Get m s2 db k) = some DBError.ErrClosed) ∧
        (∀ m db bound,
          catchPanic (Snapshot.NewIter m s2 db bound) = some DBError.ErrClosed) :=
  ⟨rfl, closed_error_panics DB.empty.NewSnapshot rfl⟩

/-- C9 counterexample: the claim asserts every deleteRange call with
start ≥ end fails synchronously as a usage error, but the empty range
start = end = 40000 (exactly the round-0 DeleteRange(mid, mid) of
TestSnapshotRangeDeletionStress, which the test requires to return no
error) succeeds. -/
theorem deleteRange_empty_range_accepted :
    40000 ≥ 40000 ∧
      DB.empty.DeleteRange 40000 40000
        = Except.ok ⟨[], [⟨40000, 40000, 1⟩], 1⟩ :=
  ⟨le_refl 40000, rfl⟩

/-- C9 amended: a deleteRange or compact call whose range is reversed
(start > end) is reported synchronously to the caller as a usage error;
a call with start = end succeeds, and the empty tombstone it commits is
invisible to every read. -/
theorem malformed_range_reporting (db : DB) (s e d H k : Nat)
    (m : Val → Val → Val) :
    db.DeleteRange (e + d + 1) e = Except.error UsageError.invalidRange ∧
    db.Compact (e + d + 1) e = Except.error UsageError.invalidRange ∧
    (∃ db2, db.DeleteRange s (s + d) = Except.ok db2) ∧
    (∃ db3, db.Compact s (s + d) = Except.ok db3) ∧
    (db.deleteRangeTotal e e).get m H k = db.get m H k := by
  refine ⟨?_, ?_, ?_, ?_, ?_⟩
  · rw [DB.DeleteRange, if_pos (by omega)]
  · rw [DB.Compact, if_pos (by omega)]
  · exact ⟨_, by rw [DB.DeleteRange, if_neg (by omega)]⟩
  · exact ⟨_, by rw [DB.Compact, if_neg (by omega)]⟩
  · rw [DB.deleteRangeTotal, DB.DeleteRange, if_neg (by omega)]
    show DB.get m ⟨db.points, db.tombs ++ [⟨e, e, db.seq + 1⟩], db.seq + 1⟩ H k
        = db.get m H k
    rw [DB.get, DB.get]
    have h1 : tombMax k H (db.tombs ++ [⟨e, e, db.seq + 1⟩])
        = tombMax k H db.tombs := by
      rw [tombMax, tombMax, List.foldr_append]
      simp only [List.foldr_cons, List.foldr_nil]
      rw [if_neg (by omega)]
    rw [h1]

/-- Advancing an iterator never changes its terminal error state. -/
theorem run_err_stable (it : Iterator) (n : Nat) : (it.run n).err = it.err := by
  induction n generalizing it with
  | zero => rfl
  | succ n ih =>
    rw [Iterator.run, ih, Iterator.Next]
    cases it.rest <;> rfl

/-- Advancing an iterator positioned on an entry stream moves to the tail
of the stream. -/
theorem start_ok_next (l : List (Nat × Val)) :
    (Iterator.start (Except.ok l)).Next = Iterator.start (Except.ok l.tail) := by
  cases l with
  | nil => rfl
  | cons x t => cases t <;> rfl

/-- Advancing `n` times over an entry stream drops `n` entries. -/
theorem run_start_ok (l : List (Nat × Val)) (n : Nat) :
    (Iterator.start (Except.ok l)).run n
      = Iterator.start (Except.ok (l.drop n)) := by
  induction n generalizing l with
  | zero => rfl
  | succ n ih =>
    rw [Iterator.run, start_ok_next, ih, ← List.drop_one, List.drop_drop]
    rw [Nat.add_comm]

/-- C8: an iterator always lets the caller distinguish exhaustion from
failure: at every position at which the iterator is not on an entry, its
terminal error state is either the storage error propagated unchanged
(when the underlying merged read failed) or nil meaning no more entries
(when it succeeded, in which case the whole stream was consumed); and a
storage error also propagates unchanged through a point read. -/
theorem iterator_error_propagation
    (st : Except DBError (List (Nat × Val))) (n k : Nat)
    (h : ((Iterator.start st).run n).Valid = false) :
    (∀ e0, st = Except.error e0 →
      ((Iterator.start st).run n).Error = some e0 ∧
        getThrough st k = Except.error e0) ∧
    (∀ l, st = Except.ok l →
      ((Iterator.start st).run n).Error = none ∧ l.length ≤ n) := by
  constructor
  · rintro e0 rfl
    exact ⟨by rw [Iterator.Error, run_err_stable]; rfl, rfl⟩
  · rintro l rfl
    constructor
    · rw [Iterator.Error, run_err_stable]
      cases l <;> rfl
    · rw [run_start_ok] at h
      cases hd : l.drop n with
      | nil => exact List.drop_eq_nil_iff.mp hd
      | cons x t =>
        rw [hd] at h
        exact absurd h (by simp [Iterator.start, Iterator.Valid])

/-- Witness for C8: a storage failure surfaces through the iterator's
terminal error state and through get, unchanged. -/
theorem iterator_error_propagation_witness :
    ((Iterator.start (Except.error (DBError.ioError 7))).run 2).Error
        = some (DBError.ioError 7) ∧
      getThrough (Except.error (DBError.ioError 7)) 0
        = Except.error (DBError.ioError 7) :=
  (iterator_error_propagation (Except.error (DBError.ioError 7)) 2 0 rfl).1
    (DBError.ioError 7) rfl

/-- C3: the visibility-filter law.  For a key holding a single point
version (kind Set) at sequence V and covered by a range tombstone at
sequence T with V < T: a reader horizon H ≥ T sees the key as absent
(the tombstone masks the version), a horizon with V ≤ H < T sees the
version, and a horizon H < V sees the key as absent (not yet written). -/
theorem visibility_filter_law (k ts te V T H : Nat) (v : Val)
    (m : Val → Val → Val) (hlo : ts ≤ k) (hhi : k < te) (hV : 0 < V)
    (hVT : V < T) :
    DB.get m ⟨[⟨k, Kind.set, v, V⟩], [⟨ts, te, T⟩], T⟩ H k
      = if T ≤ H then none else if V ≤ H then some v else none := by
  rw [DB.get]
  simp only [versionsFor, tombMax, List.filter_cons, List.filter_nil,
    List.foldr_cons, List.foldr_nil]
  by_cases hTH : T ≤ H
  · have hVH : V ≤ H := le_trans (le_of_lt hVT) hTH
    rw [if_pos hTH, if_pos ⟨hlo, hhi, hTH⟩]
    simp [hVH, resolve, Nat.not_lt.mpr (le_of_lt hVT)]
  · rw [if_neg hTH, if_neg (by omega : ¬(ts ≤ k ∧ k < te ∧ T ≤ H))]
    by_cases hVH : V ≤ H
    · rw [if_pos hVH]
      simp [hVH, resolve, hV]
    · rw [if_neg hVH]
      simp [hVH, resolve]

/-- Witness for C3 at concrete inputs: key 5, tombstone [3, 9) at
sequence 2, version at sequence 1, read at the three horizons 0, 1, 2. -/
theorem visibility_filter_law_witness :
    (DB.get (fun a b => a ++ b) ⟨[⟨5, Kind.set, "v", 1⟩], [⟨3, 9, 2⟩], 2⟩ 0 5
        = if 2 ≤ 0 then none else if 1 ≤ 0 then some "v" else none) ∧
      (DB.get (fun a b => a ++ b) ⟨[⟨5, Kind.set, "v", 1⟩], [⟨3, 9, 2⟩], 2⟩ 1 5
        = if 2 ≤ 1 then none else if 1 ≤ 1 then some "v" else none) ∧
      (DB.get (fun a b => a ++ b) ⟨[⟨5, Kind.set, "v", 1⟩], [⟨3, 9, 2⟩], 2⟩ 2 5
        = if 2 ≤ 2 then none else if 1 ≤ 2 then some "v" else none) :=
  ⟨visibility_filter_law 5 3 9 1 2 0 "v" (fun a b => a ++ b) (by decide)
      (by decide) (by decide) (by decide),
    visibility_filter_law 5 3 9 1 2 1 "v" (fun a b => a ++ b) (by decide)
      (by decide) (by decide) (by decide),
    visibility_filter_law 5 3 9 1 2 2 "v" (fun a b => a ++ b) (by decide)
      (by decide) (by decide) (by decide)⟩

/-- Unfolding lemma: tombMax on an empty tombstone list. -/
theorem tombMax_nil (k H : Nat) : tombMax k H [] = 0 := rfl

/-- Unfolding lemma: tombMax on a cons. -/
theorem tombMax_cons (k H : Nat) (t : RangeTomb) (l : List RangeTomb) :
    tombMax k H (t :: l)
      = if t.start ≤ k ∧ k < t.stop ∧ t.seq ≤ H
          then max t.seq (tombMax k H l) else tombMax k H l := rfl

/-- tombMax distributes over append as a maximum. -/
theorem tombMax_append (k H : Nat) (l l2 : List RangeTomb) :
    tombMax k H (l ++ l2) = max (tombMax k H l) (tombMax k H l2) := by
  induction l with
  | nil => rw [List.nil_append, tombMax_nil]; omega
  | cons t rest ih =>
    rw [List.cons_append, tombMax_cons, tombMax_cons, ih]
    split_ifs <;> omega

/-- Tombstones above the horizon do not affect tombMax. -/
theorem tombMax_high (k H : Nat) (ts : List RangeTomb)
    (hts : ∀ t ∈ ts, ¬ t.seq ≤ H) : tombMax k H ts = 0 := by
  induction ts with
  | nil => rfl
  | cons t rest ih =>
    rw [tombMax_cons,
      if_neg (by have := hts t (List.mem_cons_self t rest); tauto)]
    exact ih fun u hu => hts u (List.mem_cons_of_mem t hu)

/-- Point mutations above the horizon do not affect versionsFor. -/
theorem versionsFor_append_high (k H : Nat) (ps qs : List PointMut)
    (hqs : ∀ q ∈ qs, ¬ q.seq ≤ H) :
    versionsFor k H (ps ++ qs) = versionsFor k H ps := by
  rw [versionsFor, versionsFor, List.filter_append]
  have h : (qs.filter fun q => q.key == k && decide (q.seq ≤ H)) = [] := by
    rw [List.filter_eq_nil_iff]
    intro q hq
    simp only [Bool.and_eq_true, beq_iff_eq, decide_eq_true_eq, not_and]
    exact fun _ => hqs q hq
  rw [h, List.append_nil]

/-- Reads at a horizon are unchanged by appending mutations entirely
above the horizon. -/
theorem get_extend_high (m : Val → Val → Val) (db db2 : DB)
    (ps : List PointMut) (ts : List RangeTomb) (H k : Nat)
    (hp : db2.points = db.points ++ ps) (ht : db2.tombs = db.tombs ++ ts)
    (hps : ∀ q ∈ ps, ¬ q.seq ≤ H) (hts : ∀ t ∈ ts, ¬ t.seq ≤ H) :
    DB.get m db2 H k = DB.get m db H k := by
  rw [DB.get, DB.get, hp, ht, versionsFor_append_high k H db.points ps hps,
    tombMax_append, tombMax_high k H ts hts]
  have : max (tombMax k H db.tombs) 0 = tombMax k H db.tombs := by omega
  rw [this]

/-- Every committed write keeps the sequence counter non-decreasing. -/
theorem seq_applyOp_mono (db : DB) (op : WriteOp) :
    db.seq ≤ (db.applyOp op).seq := by
  cases op with
  | setOp k2 v => exact Nat.le_succ db.seq
  | delOp k2 => exact Nat.le_succ db.seq
  | mergeOp k2 v => exact Nat.le_succ db.seq
  | rangeDelOp s e =>
    rw [DB.applyOp, DB.DeleteRange]
    by_cases h : e < s
    · rw [if_pos h]
    · rw [if_neg h]; exact Nat.le_succ db.seq

/-- A single committed write does not change any read at a horizon at or
below the pre-write sequence counter. -/
theorem get_applyOp_high (m : Val → Val → Val) (db : DB) (op : WriteOp)
    (H k : Nat) (hH : H ≤ db.seq) :
    DB.get m (db.applyOp op) H k = DB.get m db H k := by
  cases op with
  | setOp k2 v =>
    exact get_extend_high m db _ [⟨k2, Kind.set, v, db.seq + 1⟩] [] H k rfl
      (List.append_nil db.tombs).symm
      (by intro q hq; simp at hq; subst hq; simp; omega) (by simp)
  | delOp k2 =>
    exact get_extend_high m db _ [⟨k2, Kind.del, "", db.seq + 1⟩] [] H k rfl
      (List.append_nil db.tombs).symm
      (by intro q hq; simp at hq; subst hq; simp; omega) (by simp)
  | mergeOp k2 v =>
    exact get_extend_high m db _ [⟨k2, Kind.merge, v, db.seq + 1⟩] [] H k rfl
      (List.append_nil db.tombs).symm
      (by intro q hq; simp at hq; subst hq; simp; omega) (by simp)
  | rangeDelOp s e =>
    rw [DB.applyOp, DB.DeleteRange]
    by_cases h : e < s
    · rw [if_pos h]
    · rw [if_neg h]
      exact get_extend_high m db _ [] [⟨s, e, db.seq + 1⟩] H k
        (List.append_nil db.points).symm rfl (by simp)
        (by intro t htm; simp at htm; subst htm; simp; omega)

/-- Restricting the tombstones to the horizon does not change tombMax. -/
theorem tombMax_restrict (k H : Nat) (ts : List RangeTomb) :
    tombMax k H (ts.filter fun t => decide (t.seq ≤ H)) = tombMax k H ts := by
  induction ts with
  | nil => rfl
  | cons t rest ih =>
    by_cases h : t.seq ≤ H
    · rw [List.filter_cons_of_pos (by simpa using h), tombMax_cons,
        tombMax_cons, ih]
    · rw [List.filter_cons_of_neg (by simpa using h), tombMax_cons,
        if_neg (by tauto), ih]

/-- Restricting the points to the horizon does not change versionsFor. -/
theorem versionsFor_restrict (k H : Nat) (ps : List PointMut) :
    versionsFor k H (ps.filter fun q => decide (q.seq ≤ H))
      = versionsFor k H ps := by
  rw [versionsFor, versionsFor, List.filter_filter]
  congr 1
  apply List.filter_congr
  intro q _
  cases hq : decide (q.seq ≤ H) <;> simp [hq]

/-- A read at horizon H observes exactly the mutations with sequence
number at most H: the state restricted to them reads identically. -/
theorem get_restrict (m : Val → Val → Val) (db : DB) (H k : Nat) :
    DB.get m db H k = DB.get m (db.restrict H) H k := by
  rw [DB.get, DB.get, DB.restrict]
  show resolve m ((versionsFor k H db.points).filter
      (fun q => decide (tombMax k H db.tombs < q.seq))) = _
  rw [versionsFor_restrict, tombMax_restrict]

/-- C1: the isolation law.  A snapshot pinned at horizon H ≤ db.seq (in
particular one created at S = db.seq, before which every mutation of db
was committed) reads, for each key, exactly what the visibility filter
selects among the mutations with sequence number ≤ H — the restricted
state reads identically — and every read through it (get, and the
iterator key set) is completely unaffected by any interleaving of
mutations committed afterward. -/
theorem snapshot_isolation_law (m : Val → Val → Val) (db : DB)
    (ops : List WriteOp) (H : Nat) (hH : H ≤ db.seq) :
    (∀ k, DB.get m (db.applyOps ops) H k = DB.get m db H k) ∧
    (∀ k, DB.get m db H k = DB.get m (db.restrict H) H k) ∧
    (∀ bound, visibleKeys m (db.applyOps ops) H bound
      = visibleKeys m db H bound) := by
  have part1 : ∀ (ops2 : List WriteOp) (db2 : DB), H ≤ db2.seq → ∀ k,
      DB.get m (db2.applyOps ops2) H k = DB.get m db2 H k := by
    intro ops2
    induction ops2 with
    | nil => intro db2 _ k; rfl
    | cons op rest ih =>
      intro db2 hdb k
      rw [DB.applyOps, List.foldl_cons]
      have h2 := ih (db2.applyOp op)
        (le_trans hdb (seq_applyOp_mono db2 op)) k
      rw [DB.applyOps] at h2
      rw [h2, get_applyOp_high m db2 op H k hdb]
  refine ⟨part1 ops db hH, fun k => get_restrict m db H k, ?_⟩
  intro bound
  rw [visibleKeys, visibleKeys]
  apply List.filter_congr
  intro p _
  rw [part1 ops db hH p]

/-- Witness for C1: a snapshot of a one-key state at horizon 1 is
unaffected by a later write to the same key. -/
theorem snapshot_isolation_law_witness :
    (∀ k, DB.get (fun a b => a ++ b)
        ((DB.empty.Set 1 "a").applyOps [WriteOp.setOp 1 "b"]) 1 k
        = DB.get (fun a b => a ++ b) (DB.empty.Set 1 "a") 1 k) ∧
      (∀ k, DB.get (fun a b => a ++ b) (DB.empty.Set 1 "a") 1 k
        = DB.get (fun a b => a ++ b) ((DB.empty.Set 1 "a").restrict 1) 1 k) ∧
      (∀ bound, visibleKeys (fun a b => a ++ b)
          ((DB.empty.Set 1 "a").applyOps [WriteOp.setOp 1 "b"]) 1 bound
        = visibleKeys (fun a b => a ++ b) (DB.empty.Set 1 "a") 1 bound) :=
  snapshot_isolation_law (fun a b => a ++ b) (DB.empty.Set 1 "a")
    [WriteOp.setOp 1 "b"] 1 (by decide)

/-- Removing an element yields a sublist of the registry. -/
theorem removeFirst_sublist (l : List Snapshot) (s : Snapshot) :
    List.Sublist (removeFirst l s) l := by
  induction l with
  | nil => exact List.Sublist.refl []
  | cons t rest ih =>
    rw [removeFirst]
    by_cases h : t = s
    · rw [if_pos h]; exact List.sublist_cons_self t rest
    · rw [if_neg h]; exact List.Sublist.cons₂ t ih

/-- The serialization-point invariant: in every reachable engine state,
every registered snapshot is pinned at or below the engine's sequence
counter, and the registry is pairwise ascending in sequence number. -/
theorem reachable_inv (e : Engine) (h : Reachable e) :
    (∀ s ∈ e.registry.elems, s.seqNum ≤ e.seq) ∧
      e.registry.elems.Pairwise (fun a b => a.seqNum ≤ b.seqNum) := by
  induction h with
  | start =>
    exact ⟨by intro s hs; simp [snapshotList.init] at hs,
      by simp [snapshotList.init]⟩
  | @step e2 f hr hs ih =>
    cases hs with
    | commit =>
      exact ⟨fun s hsm => le_trans (ih.1 s hsm) (Nat.le_succ _), ih.2⟩
    | createSnapshot =>
      constructor
      · intro s hsm
        rw [snapshotList.pushBack] at hsm
        simp only [List.mem_append, List.mem_singleton] at hsm
        rcases hsm with h1 | h2
        · exact ih.1 s h1
        · subst h2; exact le_refl _
      · rw [snapshotList.pushBack]
        apply List.pairwise_append.mpr
        refine ⟨ih.2, List.pairwise_singleton _ _, ?_⟩
        intro a ha b hb
        simp only [List.mem_singleton] at hb
        subst hb
        exact ih.1 a ha
    | closeSnapshot s hmem =>
      constructor
      · intro u hu
        exact ih.1 u ((removeFirst_sublist e2.registry.elems s).subset hu)
      · exact ih.2.sublist (removeFirst_sublist e2.registry.elems s)

/-- C7: in every reachable engine state the snapshot registry is ordered
ascending by sequence number, and every registered snapshot's sequence
number is at most the engine's counter — so a snapshot inserted next (at
the current counter) is ≥ every currently registered one, and insertion
order coincides with ascending-sequence-number order. -/
theorem registry_ascending_invariant (e : Engine) (h : Reachable e) :
    e.registry.toSlice.Pairwise (fun a b => a ≤ b) ∧
      (∀ s ∈ e.registry.elems, s.seqNum ≤ e.seq) := by
  refine ⟨?_, (reachable_inv e h).1⟩
  rw [snapshotList.toSlice]
  exact List.Pairwise.map _ (fun a b hab => hab) (reachable_inv e h).2

/-- Witness for C7 at the reachable state with one snapshot registered. -/
theorem registry_ascending_invariant_witness :
    (Engine.mk 0 (snapshotList.init.pushBack ⟨0, false⟩)).registry.toSlice.Pairwise
        (fun a b => a ≤ b) ∧
      (∀ s ∈ (Engine.mk 0 (snapshotList.init.pushBack ⟨0, false⟩)).registry.elems,
        s.seqNum ≤ (Engine.mk 0 (snapshotList.init.pushBack ⟨0, false⟩)).seq) :=
  registry_ascending_invariant _
    (Reachable.step Reachable.start
      (EngineStep.createSnapshot ⟨0, snapshotList.init⟩))

/-- Unfolding lemma: the GC horizon of a state with an empty registry. -/
theorem currentGCHorizon_of_nil (e : Engine) (hE : e.registry.elems = []) :
    currentGCHorizon e = ⊤ := by
  rw [currentGCHorizon, hE]

/-- Unfolding lemma: the GC horizon is the front snapshot's number. -/
theorem currentGCHorizon_of_cons (e : Engine) (a : Snapshot)
    (l : List Snapshot) (hE : e.registry.elems = a :: l) :
    currentGCHorizon e = (a.seqNum : WithTop Nat) := by
  rw [currentGCHorizon, hE]

/-- C4: the GC-horizon law.  In every reachable engine state,
currentGCHorizon() is unbounded (⊤) exactly when no snapshot is open,
and otherwise equals the minimum sequence number among the open
snapshots; closing the oldest (front) snapshot either raises the horizon
or leaves it unchanged, and leaves it unchanged only when another open
snapshot pins the same sequence number. -/
theorem gc_horizon_law (e : Engine) (h : Reachable e) :
    (e.registry.isEmpty = true → currentGCHorizon e = ⊤) ∧
    (∀ s ∈ e.registry.elems,
      currentGCHorizon e ≤ (s.seqNum : WithTop Nat)) ∧
    (e.registry.isEmpty = false →
      ∃ s ∈ e.registry.elems,
        currentGCHorizon e = (s.seqNum : WithTop Nat)) ∧
    (∀ s rest, e.registry.elems = s :: rest →
      currentGCHorizon e ≤ currentGCHorizon ⟨e.seq, e.registry.remove s⟩ ∧
      (currentGCHorizon ⟨e.seq, e.registry.remove s⟩ = currentGCHorizon e →
        ∃ s2 ∈ rest, s2.seqNum = s.seqNum)) := by
  have hpw := (reachable_inv e h).2
  rcases hE : e.registry.elems with _ | ⟨a, l⟩
  · refine ⟨fun _ => currentGCHorizon_of_nil e hE, ?_, ?_, ?_⟩
    · intro s hs; cases hs
    · intro hne
      rw [snapshotList.isEmpty, hE] at hne
      cases hne
    · intro s rest hsr; cases hsr
  · rw [hE] at hpw
    have hhor := currentGCHorizon_of_cons e a l hE
    refine ⟨?_, ?_, ?_, ?_⟩
    · intro hemp
      rw [snapshotList.isEmpty, hE] at hemp
      cases hemp
    · intro s hs
      rw [hhor]
      rcases List.mem_cons.mp hs with h1 | hs2
      · subst h1; exact le_refl _
      · exact WithTop.coe_le_coe.mpr ((List.pairwise_cons.mp hpw).1 s hs2)
    · intro _
      exact ⟨a, List.mem_cons_self a l, hhor⟩
    · intro s rest hsr
      injection hsr with h1 h2
      subst h2
      subst h1
      have hrm : e.registry.remove a = ⟨l⟩ := by
        rw [snapshotList.remove, hE, removeFirst, if_pos rfl]
      rw [hrm, hhor]
      cases l with
      | nil =>
        rw [currentGCHorizon_of_nil ⟨e.seq, ⟨[]⟩⟩ rfl]
        exact ⟨le_top, fun habs => absurd habs.symm WithTop.coe_ne_top⟩
      | cons b l2 =>
        rw [currentGCHorizon_of_cons ⟨e.seq, ⟨b :: l2⟩⟩ b l2 rfl]
        have hb : a.seqNum ≤ b.seqNum :=
          (List.pairwise_cons.mp hpw).1 b (List.mem_cons_self b l2)
        exact ⟨WithTop.coe_le_coe.mpr hb,
          fun heq => ⟨b, List.mem_cons_self b l2, WithTop.coe_inj.mp heq⟩⟩

/-- Witness for C4 at the reachable state with one snapshot registered. -/
theorem gc_horizon_law_witness :
    ∃ s ∈ (Engine.mk 0 (snapshotList.init.pushBack ⟨0, false⟩)).registry.elems,
      currentGCHorizon (Engine.mk 0 (snapshotList.init.pushBack ⟨0, false⟩))
        = (s.seqNum : WithTop Nat) :=
  (gc_horizon_law _
    (Reachable.step Reachable.start
      (EngineStep.createSnapshot ⟨0, snapshotList.init⟩))).2.2.1 rfl

/-- Closed form of the point mutation that round `rr` of the stress
scenario commits for section index `i`. -/
def mkPoint (n rr i : Nat) : PointMut :=
  ⟨n * i + rr, Kind.set, helloVal, rr * (2 * n + 1) + i + 1⟩

/-- Closed form of the tombstone that round `j` of the stress scenario
commits. -/
def roundTomb (n j : Nat) : RangeTomb :=
  ⟨n * n - n * j, n * n + n * j, (j + 1) * (2 * n + 1)⟩

/-- Closed form of the write loop of one scenario round. -/
theorem roundWrites_eq (n rr c : Nat) (db : DB) :
    (List.range c).foldl (fun d i => d.Set (n * i + rr) helloVal) db
      = ⟨db.points ++ (List.range c).map
            (fun i => ⟨n * i + rr, Kind.set, helloVal, db.seq + i + 1⟩),
          db.tombs, db.seq + c⟩ := by
  induction c with
  | zero => simp
  | succ c ih =>
    rw [List.range_succ, List.foldl_append, ih, List.foldl_cons,
      List.foldl_nil]
    simp [DB.Set, List.range_succ]
    omega

/-- Scenario unfolding: round r + 1 extends the state after round r. -/
theorem scenario_succ (n r : Nat) :
    scenario n (r + 1) = doRound n (scenario n r) (r + 1) := by
  rw [scenario, scenario, List.range_succ, List.foldl_append,
    List.foldl_cons, List.foldl_nil]

/-- An in-order deleteRange commits its tombstone. -/
theorem deleteRangeTotal_ok (db : DB) (s e : Nat) (h : s ≤ e) :
    db.deleteRangeTotal s e
      = ⟨db.points, db.tombs ++ [⟨s, e, db.seq + 1⟩], db.seq + 1⟩ := by
  rw [DB.deleteRangeTotal, DB.DeleteRange, if_neg (by omega)]

/-- Closed form of the scenario state after round r: the writes of
rounds 0..r, the tombstones of rounds 0..r, and sequence counter
(r + 1) * (2n + 1) (each round commits 2n writes and one tombstone). -/
theorem scenario_eq (n r : Nat) :
    scenario n r
      = ⟨(List.range (r + 1)).flatMap
            (fun rr => (List.range (2 * n)).map (mkPoint n rr)),
          (List.range (r + 1)).map (roundTomb n),
          (r + 1) * (2 * n + 1)⟩ := by
  induction r with
  | zero =>
    rw [scenario, List.range_succ, List.range_zero, List.nil_append,
      List.foldl_cons, List.foldl_nil, doRound, roundWrites_eq,
      deleteRangeTotal_ok _ (n * n - n * 0) (n * n + n * 0)
        (Nat.le_trans (Nat.sub_le _ _) (Nat.le_add_right _ _))]
    simp only [DB.mk.injEq, DB.empty]
    refine ⟨?_, ?_, ?_⟩
    · simp only [List.range_succ, List.range_zero, List.nil_append,
        List.flatMap_cons, List.flatMap_nil, List.append_nil]
      apply List.map_congr_left
      intro i _
      rw [mkPoint]
      simp
    · simp only [List.range_succ, List.range_zero, List.nil_append,
        List.map_cons, List.map_nil]
      rw [roundTomb]
      simp
    · simp
  | succ r ih =>
    rw [scenario_succ, ih, doRound, roundWrites_eq,
      deleteRangeTotal_ok _ (n * n - n * (r + 1)) (n * n + n * (r + 1))
        (Nat.le_trans (Nat.sub_le _ _) (Nat.le_add_right _ _))]
    simp only [DB.mk.injEq]
    refine ⟨?_, ?_, ?_⟩
    · rw [List.range_succ (r + 1), List.flatMap_append]
      congr 1
      rw [List.flatMap_cons, List.flatMap_nil, List.append_nil]
      apply List.map_congr_left
      intro i _
      rw [mkPoint]
    · rw [List.range_succ (r + 1), List.map_append]
      congr 1
      rw [List.map_cons, List.map_nil, roundTomb]
      have h3 : (r + 1) * (2 * n + 1) + 2 * n + 1 = (r + 1 + 1) * (2 * n + 1) := by
        ring
      rw [h3]
    · ring

/-- Filtering a range by a predicate equivalent to equality with a fixed
value keeps at most that value. -/
theorem range_filter_eq_single (mn c : Nat) (f : Nat → Bool)
    (hf : ∀ i, f i = decide (i = c)) :
    (List.range mn).filter f = if c < mn then [c] else [] := by
  induction mn with
  | zero => simp
  | succ mn ih =>
    rw [List.range_succ, List.filter_append, ih]
    simp only [List.filter_cons, List.filter_nil, hf]
    by_cases h1 : c < mn
    · have hd : (decide (mn = c)) = false := by simp; omega
      rw [if_pos h1, hd, if_pos (by omega : c < mn + 1)]
      simp
    · by_cases h2 : mn = c
      · subst h2
        rw [if_neg h1, if_pos (by omega : mn < mn + 1)]
        simp
      · have hd : (decide (mn = c)) = false := by simp; omega
        rw [if_neg h1, hd, if_neg (by omega : ¬ c < mn + 1)]
        simp

/-- Filtering one round's write block for the versions of key p: the
block of round rr holds exactly one version of p when p is congruent to
rr mod n and within the keyspace, and none otherwise. -/
theorem filter_block (n rr p : Nat) (hn : 0 < n) (hrr : rr < n) :
    ((List.range (2 * n)).map (mkPoint n rr)).filter (fun q => q.key == p)
      = if p % n = rr ∧ p / n < 2 * n then [mkPoint n rr (p / n)] else [] := by
  rw [List.filter_map]
  by_cases hmod : p % n = rr
  · have hdm := Nat.div_add_mod p n
    have hf : ∀ i,
        ((fun q => q.key == p) ∘ mkPoint n rr) i = decide (i = p / n) := by
      intro i
      simp only [Function.comp, mkPoint]
      rw [Bool.eq_iff_iff]
      simp only [beq_iff_eq, decide_eq_true_eq]
      constructor
      · intro he
        have hmm : n * i = n * (p / n) := by omega
        exact Nat.eq_of_mul_eq_mul_left hn hmm
      · intro he
        subst he
        omega
    rw [range_filter_eq_single (2 * n) (p / n) _ hf]
    by_cases hq : p / n < 2 * n
    · rw [if_pos hq, if_pos ⟨hmod, hq⟩, List.map_cons, List.map_nil]
    · rw [if_neg hq, if_neg (by tauto), List.map_nil]
  · have hnil : ((List.range (2 * n)).filter
        ((fun q => q.key == p) ∘ mkPoint n rr)) = [] := by
      rw [List.filter_eq_nil_iff]
      intro i _
      simp only [Function.comp, mkPoint, beq_iff_eq]
      intro he
      apply hmod
      rw [← he, Nat.mul_add_mod, Nat.mod_eq_of_lt hrr]
    rw [hnil, if_neg (by tauto), List.map_nil]

/-- Filtering all rounds' writes for the versions of key p: key p holds
exactly one version overall — written in round p mod n — provided that
round has happened (p mod n ≤ r) and p lies in the keyspace. -/
theorem filter_points (n r p : Nat) (hn : 0 < n) (hr : r < n) :
    (((List.range (r + 1)).flatMap
        (fun rr => (List.range (2 * n)).map (mkPoint n rr))).filter
      (fun q => q.key == p))
      = if p % n ≤ r ∧ p / n < 2 * n
          then [mkPoint n (p % n) (p / n)] else [] := by
  induction r with
  | zero =>
    rw [List.range_succ, List.range_zero, List.nil_append,
      List.flatMap_cons, List.flatMap_nil, List.append_nil,
      filter_block n 0 p hn (by omega)]
    by_cases h1 : p % n = 0
    · by_cases h2 : p / n < 2 * n
      · rw [if_pos ⟨h1, h2⟩, if_pos (by omega), h1]
      · rw [if_neg (by tauto), if_neg (by tauto)]
    · rw [if_neg (by tauto), if_neg (by omega)]
  | succ r ih =>
    have hr2 : r < n := by omega
    rw [List.range_succ (r + 1), List.flatMap_append, List.filter_append,
      ih hr2, List.flatMap_cons, List.flatMap_nil, List.append_nil,
      filter_block n (r + 1) p hn hr]
    by_cases h2 : p / n < 2 * n
    · by_cases h1 : p % n ≤ r
      · rw [if_pos ⟨h1, h2⟩, if_neg (by omega), if_pos (by omega),
          List.append_nil]
      · by_cases h3 : p % n = r + 1
        · rw [if_neg (by tauto), if_pos ⟨h3, h2⟩, if_pos (by omega),
            List.nil_append, h3]
        · rw [if_neg (by tauto), if_neg (by tauto), if_neg (by omega),
            List.append_nil]
    · rw [if_neg (by tauto), if_neg (by tauto), if_neg (by tauto),
        List.append_nil]

/-- All writes of rounds 0..r are at or below the horizon of snapshot r,
so the horizon conjunct of the visibility filter is vacuous there. -/
theorem filter_points_seq (n r p : Nat) (hn : 0 < n) (hr : r < n) :
    (((List.range (r + 1)).flatMap
        (fun rr => (List.range (2 * n)).map (mkPoint n rr))).filter
      (fun q => q.key == p && decide (q.seq ≤ (r + 1) * (2 * n + 1))))
      = if p % n ≤ r ∧ p / n < 2 * n
          then [mkPoint n (p % n) (p / n)] else [] := by
  rw [← filter_points n r p hn hr]
  apply List.filter_congr
  intro q hq
  rw [List.mem_flatMap] at hq
  obtain ⟨rr, hrr, hq2⟩ := hq
  rw [List.mem_range] at hrr
  rw [List.mem_map] at hq2
  obtain ⟨i, hi, rfl⟩ := hq2
  rw [List.mem_range] at hi
  have hseq : (mkPoint n rr i).seq ≤ (r + 1) * (2 * n + 1) := by
    show rr * (2 * n + 1) + i + 1 ≤ (r + 1) * (2 * n + 1)
    have h1 : rr * (2 * n + 1) ≤ r * (2 * n + 1) :=
      Nat.mul_le_mul_right _ (by omega)
    have h2 : (r + 1) * (2 * n + 1) = r * (2 * n + 1) + 2 * n + 1 := by ring
    omega
  rw [decide_eq_true hseq, Bool.and_true]

/-- tombMax contribution of the single tombstone of round j, at the
horizon of snapshot r (j ≤ r): its sequence number if it covers p. -/
theorem tombMax_single_round (n r p j : Nat) (hj : j ≤ r) :
    tombMax p ((r + 1) * (2 * n + 1)) [roundTomb n j]
      = if n * n - n * j ≤ p ∧ p < n * n + n * j
          then (j + 1) * (2 * n + 1) else 0 := by
  rw [tombMax_cons, tombMax_nil]
  have hseq : (roundTomb n j).seq ≤ (r + 1) * (2 * n + 1) := by
    show (j + 1) * (2 * n + 1) ≤ (r + 1) * (2 * n + 1)
    exact Nat.mul_le_mul_right _ (by omega)
  by_cases hcov : n * n - n * j ≤ p ∧ p < n * n + n * j
  · rw [if_pos (⟨hcov.1, hcov.2, hseq⟩ :
        (roundTomb n j).start ≤ p ∧ p < (roundTomb n j).stop ∧
          (roundTomb n j).seq ≤ (r + 1) * (2 * n + 1)), if_pos hcov]
    exact max_eq_left (Nat.zero_le _)
  · rw [if_neg (fun hc => hcov ⟨hc.1, hc.2.1⟩), if_neg hcov]

/-- tombMax over the tombstones of rounds 0..j, read at the horizon of
snapshot r (j ≤ r): the covering ranges are nested increasing, so the
widest (round j) decides coverage and carries the maximal sequence. -/
theorem tombMax_rounds (n r p j : Nat) (hj : j ≤ r) :
    tombMax p ((r + 1) * (2 * n + 1)) ((List.range (j + 1)).map (roundTomb n))
      = if n * n - n * j ≤ p ∧ p < n * n + n * j
          then (j + 1) * (2 * n + 1) else 0 := by
  induction j with
  | zero =>
    rw [List.range_succ, List.range_zero, List.nil_append, List.map_cons,
      List.map_nil, tombMax_single_round n r p 0 hj]
  | succ j ih =>
    have hj2 : j ≤ r := by omega
    rw [List.range_succ (j + 1), List.map_append, tombMax_append, ih hj2,
      List.map_cons, List.map_nil, tombMax_single_round n r p (j + 1) hj]
    have hms : n * (j + 1) = n * j + n := Nat.mul_succ n j
    have hle : (j + 1) * (2 * n + 1) ≤ (j + 1 + 1) * (2 * n + 1) :=
      Nat.mul_le_mul_right _ (by omega)
    by_cases hcov : n * n - n * (j + 1) ≤ p ∧ p < n * n + n * (j + 1)
    · rw [if_pos hcov]
      by_cases hcv2 : n * n - n * j ≤ p ∧ p < n * n + n * j
      · rw [if_pos hcv2]
        exact max_eq_right hle
      · rw [if_neg hcv2]
        exact max_eq_right (Nat.zero_le _)
    · have hcv2 : ¬(n * n - n * j ≤ p ∧ p < n * n + n * j) := by omega
      rw [if_neg hcv2, if_neg hcov]
      exact max_eq_right (Nat.zero_le _)

/-- Visibility characterization for the stress scenario: at snapshot r's
horizon, key p is visible exactly when its round has happened (p mod n
≤ r), it lies in the keyspace, and round r's widest tombstone — whose
sequence number exceeds every write at or below the horizon — does not
cover it. -/
theorem get_scenario (n r p : Nat) (m : Val → Val → Val) (hn : 0 < n)
    (hr : r < n) :
    DB.get m (scenario n r) ((r + 1) * (2 * n + 1)) p
      = if p % n ≤ r ∧ p / n < 2 * n ∧
            ¬(n * n - n * r ≤ p ∧ p < n * n + n * r)
          then some helloVal else none := by
  have hvf : versionsFor p ((r + 1) * (2 * n + 1))
      ((List.range (r + 1)).flatMap
        (fun rr => (List.range (2 * n)).map (mkPoint n rr)))
      = if p % n ≤ r ∧ p / n < 2 * n
          then [mkPoint n (p % n) (p / n)] else [] := by
    rw [versionsFor, filter_points_seq n r p hn hr]
    by_cases h : p % n ≤ r ∧ p / n < 2 * n
    · rw [if_pos h]
      rfl
    · rw [if_neg h]
      rfl
  have htm := tombMax_rounds n r p r (le_refl r)
  rw [scenario_eq n r]
  show resolve m ((versionsFor p ((r + 1) * (2 * n + 1))
      ((List.range (r + 1)).flatMap
        (fun rr => (List.range (2 * n)).map (mkPoint n rr)))).filter
    (fun q => decide (tombMax p ((r + 1) * (2 * n + 1))
      ((List.range (r + 1)).map (roundTomb n)) < q.seq))) = _
  rw [hvf]
  by_cases hw : p % n ≤ r ∧ p / n < 2 * n
  · rw [if_pos hw]
    by_cases hc : n * n - n * r ≤ p ∧ p < n * n + n * r
    · have htm2 : tombMax p ((r + 1) * (2 * n + 1))
          ((List.range (r + 1)).map (roundTomb n)) = (r + 1) * (2 * n + 1) := by
        rw [htm, if_pos hc]
      simp only [htm2]
      have hlt : ¬((r + 1) * (2 * n + 1) < (mkPoint n (p % n) (p / n)).seq) := by
        show ¬((r + 1) * (2 * n + 1) < (p % n) * (2 * n + 1) + p / n + 1)
        have h1 : (p % n) * (2 * n + 1) ≤ r * (2 * n + 1) :=
          Nat.mul_le_mul_right _ hw.1
        have h2 : (r + 1) * (2 * n + 1) = r * (2 * n + 1) + (2 * n + 1) :=
          Nat.succ_mul r (2 * n + 1)
        have h3 : p / n < 2 * n := hw.2
        generalize hZ : (r + 1) * (2 * n + 1) = Z at h2 ⊢
        generalize hX : (p % n) * (2 * n + 1) = X at h1 ⊢
        generalize hY : r * (2 * n + 1) = Y at h1 h2
        omega
      rw [List.filter_cons, decide_eq_false hlt]
      rw [if_neg (by simp), List.filter_nil]
      rw [if_neg (fun h => h.2.2 hc)]
      rfl
    · have htm2 : tombMax p ((r + 1) * (2 * n + 1))
          ((List.range (r + 1)).map (roundTomb n)) = 0 := by
        rw [htm, if_neg hc]
      simp only [htm2]
      have hgt : (0 : Nat) < (mkPoint n (p % n) (p / n)).seq :=
        Nat.succ_pos _
      rw [List.filter_cons, decide_eq_true hgt]
      rw [if_pos rfl, List.filter_nil]
      rw [if_pos ⟨hw.1, hw.2, hc⟩]
      rfl
  · rw [if_neg hw, List.filter_nil,
      if_neg (fun h => hw ⟨h.1, h.2.1⟩)]
    rfl

/-- Counting the residues at most r in an initial segment of naturals. -/
theorem countP_le_range (n r : Nat) (hr : r < n) :
    (List.range n).countP (fun j => decide (j ≤ r)) = r + 1 := by
  induction n with
  | zero => exact absurd hr (Nat.not_lt_zero r)
  | succ n ih =>
    rw [List.range_succ, List.countP_append, List.countP_cons,
      List.countP_nil]
    by_cases h2 : r < n
    · rw [ih h2, if_neg (by simp; omega)]
    · have hrn : r = n := by omega
      subst hrn
      rw [if_pos (decide_eq_true (le_refl r))]
      have hall : (List.range r).countP (fun j => decide (j ≤ r))
          = (List.range r).length :=
        List.countP_eq_length.mpr (by
          intro a ha
          rw [List.mem_range] at ha
          exact decide_eq_true (by omega))
      rw [hall, List.length_range]

/-- Each block of n consecutive keys holds exactly r + 1 keys whose
residue mod n is at most r. -/
theorem countP_mod_blocks (n r k : Nat) (hn : 0 < n) (hr : r < n) :
    (List.range (n * k)).countP (fun p => decide (p % n ≤ r))
      = k * (r + 1) := by
  induction k with
  | zero => simp
  | succ k ih =>
    rw [Nat.mul_succ, List.range_add, List.countP_append, ih,
      List.countP_map]
    have hc : (List.range n).countP
        ((fun p => decide (p % n ≤ r)) ∘ (fun j => n * k + j))
        = (List.range n).countP (fun j => decide (j ≤ r)) := by
      apply List.countP_congr
      intro j hj
      rw [List.mem_range] at hj
      simp only [Function.comp, decide_eq_true_eq]
      rw [Nat.mul_add_mod, Nat.mod_eq_of_lt hj]
    rw [hc, countP_le_range n r hr]
    ring

/-- The arithmetic count of the stress scenario: among the 2n² keys, the
ones whose round has happened and that escape the widest tombstone
number exactly (r+1)·2n − 2r(r+1). -/
theorem count_formula (n r : Nat) (hn : 0 < n) (hr : r < n) :
    (List.range (2 * n * n)).countP
      (fun p => decide (p % n ≤ r) &&
        !decide (n * n - n * r ≤ p ∧ p < n * n + n * r))
      = (r + 1) * 2 * n - 2 * r * (r + 1) := by
  have hA : n * (n - r) = n * n - n * r := Nat.mul_sub_left_distrib n n r
  have hB : n * (2 * r) = 2 * (n * r) := by ring
  have hle : n * r ≤ n * n := Nat.mul_le_mul_left n (le_of_lt hr)
  have hsplit : 2 * n * n = n * (n - r) + (n * (2 * r) + n * (n - r)) := by
    have h4 : 2 * n * n = 2 * (n * n) := by ring
    omega
  rw [hsplit, List.range_add, List.countP_append, List.range_add,
    List.map_append, List.countP_append, List.countP_map, List.countP_map,
    List.countP_map]
  have hT1 : (List.range (n * (n - r))).countP
      (fun p => decide (p % n ≤ r) &&
        !decide (n * n - n * r ≤ p ∧ p < n * n + n * r))
      = (n - r) * (r + 1) := by
    rw [← countP_mod_blocks n r (n - r) hn hr]
    apply List.countP_congr
    intro p hp
    rw [List.mem_range] at hp
    have hnc : ¬(n * n - n * r ≤ p ∧ p < n * n + n * r) := by omega
    simp [hnc]
    omega
  have hT2 : (List.range (n * (2 * r))).countP
      ((fun p => decide (p % n ≤ r) &&
        !decide (n * n - n * r ≤ p ∧ p < n * n + n * r)) ∘
        (fun j => n * (n - r) + j))
      = 0 := by
    rw [List.countP_eq_zero]
    intro j hj
    rw [List.mem_range] at hj
    have hc : n * n - n * r ≤ n * (n - r) + j ∧
        n * (n - r) + j < n * n + n * r := by omega
    simp [Function.comp, hc]
  have hT3 : (List.range (n * (n - r))).countP
      (((fun p => decide (p % n ≤ r) &&
        !decide (n * n - n * r ≤ p ∧ p < n * n + n * r)) ∘
        (fun j => n * (n - r) + j)) ∘ (fun j => n * (2 * r) + j))
      = (n - r) * (r + 1) := by
    rw [← countP_mod_blocks n r (n - r) hn hr]
    apply List.countP_congr
    intro j hj
    rw [List.mem_range] at hj
    have hnc : ¬(n * n - n * r ≤ n * (n - r) + (n * (2 * r) + j) ∧
        n * (n - r) + (n * (2 * r) + j) < n * n + n * r) := by omega
    have hmm : (n * (n - r) + (n * (2 * r) + j)) % n = j % n := by
      have he : n * (n - r) + (n * (2 * r) + j) = n * (n - r + 2 * r) + j := by
        rw [Nat.mul_add]
        omega
      rw [he, Nat.mul_add_mod]
    simp only [Function.comp, Bool.and_eq_true, decide_eq_true_eq]
    rw [hmm]
    simp [hnc]
    omega
  rw [hT1, hT2, hT3]
  have hms : (n - r) * (r + 1) = n * (r + 1) - r * (r + 1) :=
    Nat.mul_sub_right_distrib n r (r + 1)
  have hle2 : r * (r + 1) ≤ n * (r + 1) :=
    Nat.mul_le_mul_right _ (le_of_lt hr)
  have e1 : (r + 1) * 2 * n = 2 * (n * (r + 1)) := by ring
  have e2 : 2 * r * (r + 1) = 2 * (r * (r + 1)) := by ring
  omega

/-- The iterator count of the stress scenario's snapshot r over the full
keyspace equals the closed formula. -/
theorem count_scenario (n r : Nat) (m : Val → Val → Val) (hn : 0 < n)
    (hr : r < n) :
    countVisible m (scenario n r) ((scenario n r).seq) (2 * n * n)
      = (r + 1) * 2 * n - 2 * r * (r + 1) := by
  have hseq : (scenario n r).seq = (r + 1) * (2 * n + 1) := by
    rw [scenario_eq]
  rw [countVisible, visibleKeys, hseq, ← List.countP_eq_length_filter]
  have hcong : ∀ p ∈ List.range (2 * n * n),
      ((DB.get m (scenario n r) ((r + 1) * (2 * n + 1)) p).isSome = true ↔
        (decide (p % n ≤ r) &&
          !decide (n * n - n * r ≤ p ∧ p < n * n + n * r)) = true) := by
    intro p hp
    rw [List.mem_range] at hp
    rw [get_scenario n r p m hn hr]
    have hdiv : p / n < 2 * n := by
      rw [Nat.div_lt_iff_lt_mul hn]
      exact hp
    by_cases hx : p % n ≤ r ∧ p / n < 2 * n ∧
        ¬(n * n - n * r ≤ p ∧ p < n * n + n * r)
    · rw [if_pos hx]
      simp [hx.1, hx.2.2]
      omega
    · rw [if_neg hx]
      simp only [Option.isSome_none, Bool.false_eq_true, false_iff,
        Bool.and_eq_true, decide_eq_true_eq, Bool.not_eq_true,
        decide_eq_false_iff_not, not_and]
      intro h1
      have hc : n * n - n * r ≤ p ∧ p < n * n + n * r := by
        by_contra hcc
        exact hx ⟨h1, hdiv, hcc⟩
      simp [hc]
  rw [List.countP_congr hcong, count_formula n r hn hr]

/-- No key at or beyond the 2n²-wide keyspace is ever written, so none
is visible at any scenario snapshot. -/
theorem get_scenario_outside (n r p : Nat) (m : Val → Val → Val)
    (hn : 0 < n) (hr : r < n) (hp : 2 * n * n ≤ p) :
    DB.get m (scenario n r) ((scenario n r).seq) p = none := by
  have hseq : (scenario n r).seq = (r + 1) * (2 * n + 1) := by
    rw [scenario_eq]
  rw [hseq, get_scenario n r p m hn hr, if_neg]
  intro h
  have h2 := h.2.1
  rw [Nat.div_lt_iff_lt_mul hn] at h2
  omega

/-- C6: the range-deletion count law.  In the concrete stress scenario
with runs = 200 and mid = runs², where round r writes the 2·runs keys at
positions runs·i + r (i < 2·runs), then deletes the range
[mid − runs·r, mid + runs·r), then takes a snapshot: the number of keys
visible by iterating snapshot r equals (r+1)·2·runs − 2·r·(r+1) exactly,
for every r — counting over the full 2·runs² keyspace, outside which no
key is ever visible. -/
theorem range_deletion_count_law (r : Nat) (m : Val → Val → Val)
    (hr : r < 200) :
    countVisible m (scenario 200 r) ((scenario 200 r).seq) (2 * 200 * 200)
        = (r + 1) * 2 * 200 - 2 * r * (r + 1) ∧
      (∀ p, 2 * 200 * 200 ≤ p →
        DB.get m (scenario 200 r) ((scenario 200 r).seq) p = none) :=
  ⟨count_scenario 200 r m (by omega) hr,
    fun p hp => get_scenario_outside 200 r p m (by omega) hr hp⟩

/-- Witness for C6 at round r = 2. -/
theorem range_deletion_count_law_witness :
    countVisible (fun a b => a ++ b) (scenario 200 2)
        ((scenario 200 2).seq) (2 * 200 * 200)
      = (2 + 1) * 2 * 200 - 2 * 2 * (2 + 1) :=
  (range_deletion_count_law 2 (fun a b => a ++ b) (by omega)).1
